import Mathlib

/-!
Verification of the SPSS export pipeline of `app.py` (limpieza-sav).

Python strings are modelled as `List Char`.  The Python regular-expression
character classes used by the code (backslash-w, backslash-s) and the method
`str.isalpha` are Unicode-table based; the embedding reproduces Python's
tables exactly on the Basic Latin and Latin-1 ranges (code points up to
U+00FF) and treats higher code points as outside all classes.  All data
appearing in the development stays within Latin-1.
-/

/-- A Python string: a list of characters. -/
abbrev PyStr := List Char

/-- Constant `SPSS_VAR_NAME_MAX_LEN` from app.py line 26. -/
def SPSS_VAR_NAME_MAX_LEN : Nat := 64

/-- Constant `MAX_CATEGORIAS_PARA_LLM` from app.py line 25. -/
def MAX_CATEGORIAS_PARA_LLM : Nat := 10

/-- The fixed punctuation set replaced by underscore in app.py line 33
(dot, colon, hyphen, slash). -/
def pyIsPunct (c : Char) : Bool :=
  c = '.' || c = ':' || c = '-' || c = '/'

/-- Python regex whitespace class, exact on code points up to U+00FF:
tab, LF, VT, FF, CR, the four separator controls U+001C..U+001F, space,
NEL (U+0085) and NBSP (U+00A0). -/
def pyIsSpace (c : Char) : Bool :=
  c.toNat ∈ [0x09, 0x0A, 0x0B, 0x0C, 0x0D, 0x1C, 0x1D, 0x1E, 0x1F, 0x20, 0x85, 0xA0]

/-- Python `str.isalpha` per character, exact on code points up to U+00FF:
ASCII letters plus the Latin-1 letters U+00AA, U+00B5, U+00BA,
U+00C0–U+00D6, U+00D8–U+00F6 and U+00F8–U+00FF. -/
def pyIsAlpha (c : Char) : Bool :=
  (0x41 ≤ c.toNat && c.toNat ≤ 0x5A) || (0x61 ≤ c.toNat && c.toNat ≤ 0x7A) ||
  c.toNat = 0xAA || c.toNat = 0xB5 || c.toNat = 0xBA ||
  (0xC0 ≤ c.toNat && c.toNat ≤ 0xD6) || (0xD8 ≤ c.toNat && c.toNat ≤ 0xF6) ||
  (0xF8 ≤ c.toNat && c.toNat ≤ 0xFF)

/-- Numeric characters counted by Python `str.isalnum` on code points up to
U+00FF beyond the ASCII digits: superscripts two, three, one and the three
vulgar fractions of Latin-1. -/
def pyIsNumChar (c : Char) : Bool :=
  (0x30 ≤ c.toNat && c.toNat ≤ 0x39) || c.toNat = 0xB2 || c.toNat = 0xB3 ||
  c.toNat = 0xB9 || (0xBC ≤ c.toNat && c.toNat ≤ 0xBE)

/-- Python regex word-character class: alphanumeric per `str.isalnum`
plus the underscore (U+005F); exact on code points up to U+00FF. -/
def pyIsWordChar (c : Char) : Bool :=
  pyIsAlpha c || pyIsNumChar c || c.toNat = 0x5F

/-- Replacement of the fixed punctuation set by underscore (app.py line 33). -/
def puntoAGuion (c : Char) : Char :=
  if pyIsPunct c then '_' else c

/-- Collapse of each maximal whitespace run into one underscore
(app.py line 34).  The flag records whether the previous character was part
of a whitespace run already replaced. -/
def collapseWsAux : Bool → List Char → List Char
  | _, [] => []
  | inRun, c :: cs =>
    if pyIsSpace c then
      if inRun then collapseWsAux true cs else '_' :: collapseWsAux true cs
    else c :: collapseWsAux false cs

/-- The three substitutions of app.py lines 33-35: punctuation to
underscore, whitespace runs to underscore, and stripping of every
remaining non-word character. -/
def sanitizeCore (s : PyStr) : PyStr :=
  (collapseWsAux false (s.map puntoAGuion)).filter pyIsWordChar

/-- App.py lines 36-37: prepend the literal prefix when the cleaned string
is empty or does not start with a letter. -/
def conPrefijoV (s3 : PyStr) : PyStr :=
  if s3.isEmpty || !(pyIsAlpha (s3.headD ' ')) then 'V' :: '_' :: s3 else s3

/-- `sanitize_spss_varname` (app.py lines 31-41): the three substitutions,
the conditional literal prefix, truncation to 64 characters, and the final
fallback `UnnamedVar` for an empty result. -/
def sanitize_spss_varname (s : PyStr) : PyStr :=
  if ((conPrefijoV (sanitizeCore s)).take SPSS_VAR_NAME_MAX_LEN).isEmpty then
    "UnnamedVar".toList
  else (conPrefijoV (sanitizeCore s)).take SPSS_VAR_NAME_MAX_LEN

/-- ASCII letter, for the spec's regular expression. -/
def isAsciiAlphaChar (c : Char) : Bool :=
  ('A' ≤ c && c ≤ 'Z') || ('a' ≤ c && c ≤ 'z')

/-- ASCII word character, for the spec's regular expression. -/
def isAsciiWordChar (c : Char) : Bool :=
  isAsciiAlphaChar c || ('0' ≤ c && c ≤ '9') || c = '_'

/-- Whether a string matches the spec's regular expression: an ASCII letter
followed by at most 63 ASCII word characters. -/
def matchesSpssNameRegex : PyStr → Bool
  | [] => false
  | c :: cs => isAsciiAlphaChar c && cs.all isAsciiWordChar && cs.length ≤ 63

-- Basic facts about the character classes.

theorem pyIsSpace_not_word {c : Char} (h : pyIsSpace c = true) :
    pyIsWordChar c = false := by
  simp only [pyIsSpace, List.mem_cons, List.not_mem_nil, or_false,
    decide_eq_true_eq] at h
  simp only [pyIsWordChar, pyIsAlpha, pyIsNumChar, Bool.or_eq_false_iff,
    Bool.and_eq_false_iff, decide_eq_false_iff_not, not_le]
  omega

theorem pyIsPunct_not_word {c : Char} (h : pyIsPunct c = true) :
    pyIsWordChar c = false := by
  simp only [pyIsPunct, Bool.or_eq_true, decide_eq_true_eq] at h
  rcases h with ((h | h) | h) | h <;> subst h <;> decide

theorem word_not_space {c : Char} (h : pyIsWordChar c = true) :
    pyIsSpace c = false := by
  cases hs : pyIsSpace c
  · rfl
  · rw [pyIsSpace_not_word hs] at h
    exact absurd h (by simp)

theorem word_not_punct {c : Char} (h : pyIsWordChar c = true) :
    pyIsPunct c = false := by
  cases hs : pyIsPunct c
  · rfl
  · rw [pyIsPunct_not_word hs] at h
    exact absurd h (by simp)

theorem collapseWsAux_no_space {l : List Char} (h : ∀ c ∈ l, pyIsSpace c = false) :
    ∀ b, collapseWsAux b l = l := by
  induction l with
  | nil => intro b; rfl
  | cons c cs ih =>
    intro b
    have hc : pyIsSpace c = false := h c (List.mem_cons_self c cs)
    simp only [collapseWsAux, hc, Bool.false_eq_true, if_false]
    rw [ih (fun x hx => h x (List.mem_cons_of_mem c hx)) false]

theorem sanitizeCore_all_word (s : PyStr) :
    ∀ c ∈ sanitizeCore s, pyIsWordChar c = true :=
  fun _ hc => (List.mem_filter.mp hc).2

theorem conPrefijoV_shape {s3 : PyStr} (hw : ∀ c ∈ s3, pyIsWordChar c = true) :
    conPrefijoV s3 ≠ [] ∧ pyIsAlpha ((conPrefijoV s3).headD ' ') = true ∧
      ∀ c ∈ conPrefijoV s3, pyIsWordChar c = true := by
  unfold conPrefijoV
  by_cases hb : (s3.isEmpty || !(pyIsAlpha (s3.headD ' '))) = true
  · simp only [hb, if_true]
    refine ⟨by simp, by simp only [List.headD_cons]; decide, ?_⟩
    intro c hc
    simp only [List.mem_cons] at hc
    rcases hc with rfl | rfl | hc
    · decide
    · decide
    · exact hw c hc
  · simp only [hb, if_false]
    have hb' := hb
    simp only [Bool.or_eq_true, Bool.not_eq_true', not_or, Bool.not_eq_false] at hb'
    obtain ⟨hne, halpha⟩ := hb'
    exact ⟨by simpa [List.isEmpty_iff] using hne, halpha, hw⟩

theorem sanitize_spss_varname_shape (s : PyStr) :
    sanitize_spss_varname s ≠ [] ∧
      (sanitize_spss_varname s).length ≤ SPSS_VAR_NAME_MAX_LEN ∧
      pyIsAlpha ((sanitize_spss_varname s).headD ' ') = true ∧
      ∀ c ∈ sanitize_spss_varname s, pyIsWordChar c = true := by
  obtain ⟨hne, hhead, hword⟩ := conPrefijoV_shape (sanitizeCore_all_word s)
  unfold sanitize_spss_varname
  rcases hcons : conPrefijoV (sanitizeCore s) with _ | ⟨c, cs⟩
  · exact absurd hcons hne
  · have hhd : pyIsAlpha c = true := by
      rw [hcons] at hhead; simpa using hhead
    simp only [hcons, SPSS_VAR_NAME_MAX_LEN, List.take_succ_cons, List.isEmpty_cons,
      Bool.false_eq_true, if_false]
    refine ⟨by simp, ?_, by simpa using hhd, ?_⟩
    · simp only [List.length_cons]
      exact Nat.succ_le_succ (List.length_take_le 63 cs)
    · intro x hx
      simp only [List.mem_cons] at hx
      rcases hx with rfl | hx
      · exact hword x (by rw [hcons]; exact List.mem_cons_self x cs)
      · exact hword x (by rw [hcons]; exact List.mem_cons_of_mem c (List.take_subset 63 cs hx))

theorem sanitizeCore_fixed {y : PyStr} (h : ∀ c ∈ y, pyIsWordChar c = true) :
    sanitizeCore y = y := by
  unfold sanitizeCore
  have h1 : y.map puntoAGuion = y := by
    induction y with
    | nil => rfl
    | cons a as ih =>
      have ha : puntoAGuion a = a := by
        unfold puntoAGuion
        rw [word_not_punct (h a (List.mem_cons_self a as))]
        rfl
      simp only [List.map_cons, ha,
        ih (fun c hc => h c (List.mem_cons_of_mem a hc))]
  rw [h1, collapseWsAux_no_space (fun c hc => word_not_space (h c hc)) false,
    List.filter_eq_self.mpr h]

theorem sanitize_fixed_of_shape {y : PyStr} (hne : y ≠ [])
    (hlen : y.length ≤ SPSS_VAR_NAME_MAX_LEN)
    (hhead : pyIsAlpha (y.headD ' ') = true)
    (hword : ∀ c ∈ y, pyIsWordChar c = true) :
    sanitize_spss_varname y = y := by
  unfold sanitize_spss_varname
  rw [sanitizeCore_fixed hword]
  have hpre : conPrefijoV y = y := by
    unfold conPrefijoV
    have hie : y.isEmpty = false := by simpa [List.isEmpty_iff] using hne
    simp only [hie, hhead, Bool.not_true, Bool.or_self, Bool.false_eq_true, if_false]
  rw [hpre, List.take_of_length_le hlen]
  have hie : y.isEmpty = false := by simpa [List.isEmpty_iff] using hne
  simp only [hie, Bool.false_eq_true, if_false]

/-- Claim C5: the identifier sanitizer is idempotent — for every input
string x, sanitize(sanitize(x)) equals sanitize(x). -/
theorem C5_sanitize_idempotent (s : PyStr) :
    sanitize_spss_varname (sanitize_spss_varname s) = sanitize_spss_varname s := by
  obtain ⟨hne, hlen, hhead, hword⟩ := sanitize_spss_varname_shape s
  exact sanitize_fixed_of_shape hne hlen hhead hword

/-- Claim C4 fails: the sanitizer keeps non-ASCII word characters (Python's
regex word class and str.isalpha are Unicode-aware), so the output of
sanitizing the one-character string with Latin-1 letter U+00F1 is that same
letter, which does not match the ASCII regular expression
of the claim. -/
theorem C4_counterexample_nonascii :
    sanitize_spss_varname ['ñ'] = ['ñ'] ∧
      matchesSpssNameRegex (sanitize_spss_varname ['ñ']) = false := by
  constructor
  · rfl
  · rfl

/-- Claim C4 amended: for every input string the sanitizer's output is
non-empty, at most 64 characters long, starts with a character that Python
classifies as alphabetic, and contains only Python word characters
(Unicode letters and digits and the underscore) — the Unicode version of
the claimed shape, not the ASCII-only regular expression. -/
theorem C4_amended_sanitize_shape (s : PyStr) :
    sanitize_spss_varname s ≠ [] ∧
      (sanitize_spss_varname s).length ≤ SPSS_VAR_NAME_MAX_LEN ∧
      pyIsAlpha ((sanitize_spss_varname s).headD ' ') = true ∧
      ∀ c ∈ sanitize_spss_varname s, pyIsWordChar c = true :=
  sanitize_spss_varname_shape s

/-- Decimal representation of a natural number as Python str() renders it
(the export loop only ever formats counters that start at 1). -/
def natRepr (n : Nat) : PyStr :=
  ((Nat.digits 10 n).map Nat.digitChar).reverse

/-- Python slice s[:n] including its negative-index semantics: a negative
bound counts from the end of the string. -/
def pySliceTo (s : PyStr) (n : Int) : PyStr :=
  if n < 0 then s.take (s.length - (-n).toNat) else s.take n.toNat

/-- Candidate name tried by the collision loop of app.py lines 604-607:
the sanitized base cut so that underscore plus the counter still fits the
64-character limit, followed by underscore and the counter. -/
def candidato (base : PyStr) (count : Nat) : PyStr :=
  pySliceTo base ((SPSS_VAR_NAME_MAX_LEN : Int) - ((natRepr count).length + 1)) ++
    '_' :: natRepr count

theorem digitChar_inj_lt :
    ∀ d1 < 10, ∀ d2 < 10, Nat.digitChar d1 = Nat.digitChar d2 → d1 = d2 := by
  decide

theorem map_digitChar_inj {l1 l2 : List Nat} (h1 : ∀ d ∈ l1, d < 10)
    (h2 : ∀ d ∈ l2, d < 10) (h : l1.map Nat.digitChar = l2.map Nat.digitChar) :
    l1 = l2 := by
  induction l1 generalizing l2 with
  | nil => cases l2 with
    | nil => rfl
    | cons b bs => simp at h
  | cons a as ih =>
    cases l2 with
    | nil => simp at h
    | cons b bs =>
      simp only [List.map_cons, List.cons.injEq] at h
      have ha : a = b :=
        digitChar_inj_lt a (h1 a (List.mem_cons_self a as))
          b (h2 b (List.mem_cons_self b bs)) h.1
      rw [ha, ih (fun d hd => h1 d (List.mem_cons_of_mem a hd))
        (fun d hd => h2 d (List.mem_cons_of_mem b hd)) h.2]

theorem natRepr_inj {n m : Nat} (h : natRepr n = natRepr m) : n = m := by
  unfold natRepr at h
  have h' := List.reverse_injective h
  exact Nat.digits_inj_iff.mp
    (map_digitChar_inj (fun d hd => Nat.digits_lt_base (by norm_num) hd)
      (fun d hd => Nat.digits_lt_base (by norm_num) hd) h')

theorem natRepr_length_of_range {s n : Nat} (h1 : 10 ^ s ≤ n) (h2 : n < 10 ^ (s + 1)) :
    (natRepr n).length = s + 1 := by
  have hn : n ≠ 0 := by
    have : 0 < 10 ^ s := Nat.pos_pow_of_pos s (by norm_num)
    omega
  unfold natRepr
  rw [List.length_reverse, List.length_map,
    Nat.digits_len 10 n (by norm_num) hn, Nat.log_eq_of_pow_le_of_lt_pow h1 h2]

theorem candidato_inj_same_len {base : PyStr} {c1 c2 : Nat}
    (hlen : (natRepr c1).length = (natRepr c2).length)
    (h : candidato base c1 = candidato base c2) : c1 = c2 := by
  unfold candidato at h
  rw [hlen] at h
  have h2 := List.append_cancel_left h
  simp only [List.cons.injEq, true_and] at h2
  exact natRepr_inj h2

/-- The while loop of app.py lines 603-607.  `current` is the name under
test, `count` the next suffix counter.  The fuel only bounds the number of
iterations of the model; `buscaLibre_fresh` shows the fuel supplied by
`nombreUnicoFinal` is never exhausted, so the model agrees with the
unbounded Python loop. -/
def buscaLibre (base : PyStr) (seen : List PyStr) : Nat → Nat → PyStr → PyStr
  | 0, _, current => current
  | fuel + 1, count, current =>
    if current ∈ seen then buscaLibre base seen fuel (count + 1) (candidato base count)
    else current

/-- The unique final name chosen for one column (app.py lines 601-607). -/
def nombreUnicoFinal (base : PyStr) (seen : List PyStr) : PyStr :=
  buscaLibre base seen (10 ^ (seen.length + 1)) 1 base

theorem buscaLibre_fresh {base : PyStr} {seen : List PyStr} :
    ∀ fuel count current,
      (current ∉ seen ∨ ∃ j, count ≤ j ∧ j < count + fuel ∧ candidato base j ∉ seen) →
      buscaLibre base seen fuel count current ∉ seen := by
  intro fuel
  induction fuel with
  | zero =>
    intro count current h
    rcases h with h | ⟨j, hj1, hj2, _⟩
    · exact h
    · omega
  | succ fuel ih =>
    intro count current h
    by_cases hc : current ∈ seen
    · simp only [buscaLibre, hc, if_true]
      rcases h with h | ⟨j, hj1, hj2, hj3⟩
      · exact absurd hc h
      · rcases Nat.eq_or_lt_of_le hj1 with heq | hlt
        · subst heq
          exact ih (count + 1) (candidato base count) (Or.inl hj3)
        · exact ih (count + 1) (candidato base count)
            (Or.inr ⟨j, hlt, by omega, hj3⟩)
    · simp [buscaLibre, hc]

theorem exists_fresh_candidato (base : PyStr) (seen : List PyStr) :
    ∃ j, 1 ≤ j ∧ j < 1 + 10 ^ (seen.length + 1) ∧ candidato base j ∉ seen := by
  by_contra hcon
  push_neg at hcon
  set s := seen.length with hs
  have hpow : (0:Nat) < 10 ^ s := Nat.pos_pow_of_pos s (by norm_num)
  have hslt : s < 10 ^ s := Nat.lt_pow_self (by norm_num) s
  have hrange : ∀ i ≤ s, 10 ^ s ≤ 10 ^ s + i ∧ 10 ^ s + i < 10 ^ (s + 1) := by
    intro i hi
    constructor
    · omega
    · have : 10 ^ (s + 1) = 10 ^ s * 10 := by ring
      omega
  have hlenrep : ∀ i ≤ s, (natRepr (10 ^ s + i)).length = s + 1 := fun i hi =>
    natRepr_length_of_range (hrange i hi).1 (hrange i hi).2
  set L := (List.range (s + 1)).map (fun i => candidato base (10 ^ s + i)) with hL
  have hnodup : L.Nodup := by
    refine (List.nodup_range (s + 1)).map_on ?_
    intro i hi j hj hij
    have hi' : i ≤ s := by simpa [Nat.lt_succ_iff] using List.mem_range.mp hi
    have hj' : j ≤ s := by simpa [Nat.lt_succ_iff] using List.mem_range.mp hj
    have := candidato_inj_same_len
      (by rw [hlenrep i hi', hlenrep j hj']) hij
    omega
  have hsub : L ⊆ seen := by
    intro x hx
    rcases List.mem_map.mp hx with ⟨i, hi, rfl⟩
    have hi' : i ≤ s := by simpa [Nat.lt_succ_iff] using List.mem_range.mp hi
    have hjlt : 10 ^ s + i < 1 + 10 ^ (s + 1) := by
      have := (hrange i hi').2
      omega
    by_contra hnot
    exact hnot (by
      have := hcon (10 ^ s + i) (by omega) hjlt
      exact this)
  have hle : L.length ≤ seen.length := (List.subperm_of_subset hnodup hsub).length_le
  have : L.length = s + 1 := by simp [hL]
  omega

theorem nombreUnicoFinal_fresh (base : PyStr) (seen : List PyStr) :
    nombreUnicoFinal base seen ∉ seen := by
  obtain ⟨j, hj1, hj2, hj3⟩ := exists_fresh_candidato base seen
  exact buscaLibre_fresh (10 ^ (seen.length + 1)) 1 base (Or.inr ⟨j, hj1, hj2, hj3⟩)

/-- Python dict lookup: value of the first (hence only) entry with the key. -/
def dictGet {α β : Type} [DecidableEq α] (d : List (α × β)) (k : α) : Option β :=
  (d.find? (fun p => p.1 = k)).map Prod.snd

/-- Python dict.get with a default value. -/
def dictGetD {α β : Type} [DecidableEq α] (d : List (α × β)) (k : α) (v : β) : β :=
  (dictGet d k).getD v

/-- Python dict assignment d[k] = v: update in place when the key exists,
append otherwise (Python dicts preserve insertion order). -/
def dictInsert {α β : Type} [DecidableEq α] (d : List (α × β)) (k : α) (v : β) :
    List (α × β) :=
  if d.any (fun p => p.1 = k) then d.map (fun p => if p.1 = k then (k, v) else p)
  else d ++ [(k, v)]

/-- The key list of a Python dict. -/
def dictKeys {α β : Type} (d : List (α × β)) : List α :=
  d.map Prod.fst

theorem dictKeys_update {α β : Type} [DecidableEq α] (d : List (α × β)) (k : α) (v : β) :
    dictKeys (d.map (fun p => if p.1 = k then (k, v) else p)) = dictKeys d := by
  induction d with
  | nil => rfl
  | cons p ps ih =>
    by_cases hpk : p.1 = k
    · simp only [dictKeys, List.map_cons, hpk, if_true] at ih ⊢
      rw [ih]
    · simp only [dictKeys, List.map_cons, hpk, if_false] at ih ⊢
      rw [ih]

theorem dictKeys_insert {α β : Type} [DecidableEq α] (d : List (α × β)) (k : α) (v : β) :
    ∀ x, x ∈ dictKeys (dictInsert d k v) ↔ x ∈ dictKeys d ∨ x = k := by
  intro x
  unfold dictInsert
  by_cases hany : d.any (fun p => p.1 = k) = true
  · obtain ⟨q, hq, hqk⟩ := List.any_eq_true.mp hany
    simp only [decide_eq_true_eq] at hqk
    have hk : k ∈ dictKeys d := by
      rw [← hqk]
      exact List.mem_map_of_mem Prod.fst hq
    rw [if_pos hany, dictKeys_update d k v]
    constructor
    · exact Or.inl
    · rintro (h | rfl)
      · exact h
      · exact hk
  · rw [if_neg hany]
    unfold dictKeys
    rw [List.map_append, List.mem_append, List.map_cons, List.map_nil,
      List.mem_singleton]

/-- Value-label table of one encoded column: integer code to display text. -/
abbrev ValueLabels := List (Int × PyStr)

/-- State of the final sanitization pass of app.py lines 595-615:
the set of names already taken, the final column names in order, and the
two rebuilt metadata maps. -/
structure EstadoFinalSav where
  seen : List PyStr
  names : List PyStr
  varLabels : List (PyStr × PyStr)
  valLabels : List (PyStr × ValueLabels)

/-- One iteration of the final sanitization loop (app.py lines 600-615):
sanitize the current column name, make it unique against the names already
taken, record it, carry the variable label over (defaulting to the
truncated old name) and carry the value-label table over when one exists. -/
def pasoFinalSav (varIn : List (PyStr × PyStr)) (valIn : List (PyStr × ValueLabels))
    (st : EstadoFinalSav) (col : PyStr) : EstadoFinalSav :=
  let base := sanitize_spss_varname col
  let unico := nombreUnicoFinal base st.seen
  { seen := unico :: st.seen
    names := st.names ++ [unico]
    varLabels := dictInsert st.varLabels unico (dictGetD varIn col (col.take 256))
    valLabels :=
      match dictGet valIn col with
      | some t => dictInsert st.valLabels unico t
      | none => st.valLabels }

/-- The final sanitization pass over all current column names. -/
def estadoFinalSav (varIn : List (PyStr × PyStr)) (valIn : List (PyStr × ValueLabels))
    (cols : List PyStr) : EstadoFinalSav :=
  cols.foldl (pasoFinalSav varIn valIn) ⟨[], [], [], []⟩

/-- `final_sav_column_names` of app.py line 590/609. -/
def final_sav_column_names (varIn : List (PyStr × PyStr))
    (valIn : List (PyStr × ValueLabels)) (cols : List PyStr) : List PyStr :=
  (estadoFinalSav varIn valIn cols).names

/-- `final_spss_variable_labels_for_sav` of app.py line 595/612. -/
def final_spss_variable_labels_for_sav (varIn : List (PyStr × PyStr))
    (valIn : List (PyStr × ValueLabels)) (cols : List PyStr) :
    List (PyStr × PyStr) :=
  (estadoFinalSav varIn valIn cols).varLabels

/-- `final_spss_value_labels_for_sav` of app.py line 596/615. -/
def final_spss_value_labels_for_sav (varIn : List (PyStr × PyStr))
    (valIn : List (PyStr × ValueLabels)) (cols : List PyStr) :
    List (PyStr × ValueLabels) :=
  (estadoFinalSav varIn valIn cols).valLabels

/-- Invariant carried through the final sanitization pass. -/
def InvFinalSav (st : EstadoFinalSav) : Prop :=
  st.names.Nodup ∧ (∀ x, x ∈ st.seen ↔ x ∈ st.names) ∧
    (∀ k, k ∈ dictKeys st.varLabels ↔ k ∈ st.names) ∧
    (∀ k, k ∈ dictKeys st.valLabels → k ∈ st.names)

theorem pasoFinalSav_inv (varIn : List (PyStr × PyStr))
    (valIn : List (PyStr × ValueLabels)) (st : EstadoFinalSav) (col : PyStr)
    (h : InvFinalSav st) : InvFinalSav (pasoFinalSav varIn valIn st col) := by
  obtain ⟨hnd, hseen, hvar, hval⟩ := h
  have hfresh : nombreUnicoFinal (sanitize_spss_varname col) st.seen ∉ st.seen :=
    nombreUnicoFinal_fresh (sanitize_spss_varname col) st.seen
  have hfresh' : nombreUnicoFinal (sanitize_spss_varname col) st.seen ∉ st.names :=
    fun hmem => hfresh ((hseen _).mpr hmem)
  unfold pasoFinalSav
  refine ⟨?_, ?_, ?_, ?_⟩
  · rw [List.nodup_append]
    exact ⟨hnd, List.nodup_singleton _, by
      intro a ha hb
      simp only [List.mem_singleton] at hb
      subst hb
      exact hfresh' ha⟩
  · intro x
    simp only [List.mem_cons, List.mem_append, List.mem_singleton, hseen x]
    tauto
  · intro k
    rw [dictKeys_insert st.varLabels _ _ k]
    simp only [List.mem_append, List.mem_singleton, hvar k]
  · intro k
    simp only [List.mem_append, List.mem_singleton]
    cases hget : dictGet valIn col with
    | some t =>
      simp only [hget]
      rw [dictKeys_insert st.valLabels _ _ k]
      rintro (h | rfl)
      · exact Or.inl (hval k h)
      · exact Or.inr rfl
    | none =>
      simp only [hget]
      intro h
      exact Or.inl (hval k h)

theorem estadoFinalSav_inv (varIn : List (PyStr × PyStr))
    (valIn : List (PyStr × ValueLabels)) (cols : List PyStr) :
    InvFinalSav (estadoFinalSav varIn valIn cols) := by
  unfold estadoFinalSav
  have hgen : ∀ (l : List PyStr) (st : EstadoFinalSav), InvFinalSav st →
      InvFinalSav (l.foldl (pasoFinalSav varIn valIn) st) := by
    intro l
    induction l with
    | nil => intro st h; exact h
    | cons c cs ih =>
      intro st h
      exact ih _ (pasoFinalSav_inv varIn valIn st c h)
  exact hgen cols ⟨[], [], [], []⟩
    ⟨List.nodup_nil, fun x => Iff.rfl, fun k => Iff.rfl, fun k h => h⟩

theorem pasoFinalSav_names (varIn : List (PyStr × PyStr))
    (valIn : List (PyStr × ValueLabels)) (st : EstadoFinalSav) (col : PyStr) :
    (pasoFinalSav varIn valIn st col).names =
      st.names ++ [nombreUnicoFinal (sanitize_spss_varname col) st.seen] :=
  rfl

theorem estadoFinalSav_names_length (varIn : List (PyStr × PyStr))
    (valIn : List (PyStr × ValueLabels)) (cols : List PyStr) :
    (estadoFinalSav varIn valIn cols).names.length = cols.length := by
  unfold estadoFinalSav
  have hgen : ∀ (l : List PyStr) (st : EstadoFinalSav),
      (l.foldl (pasoFinalSav varIn valIn) st).names.length =
        st.names.length + l.length := by
    intro l
    induction l with
    | nil => intro st; simp
    | cons c cs ih =>
      intro st
      rw [List.foldl_cons, ih, pasoFinalSav_names, List.length_append]
      simp only [List.length_cons, List.length_nil]
      omega
  rw [hgen]
  simp

/-- Claim C1: the mandatory final sanitization pass, which re-sanitizes
every current column name and resolves collisions with the shortened-stem
underscore-counter suffix, yields one final identifier per column and no
two of them coincide. -/
theorem C1_final_names_distinct (varIn : List (PyStr × PyStr))
    (valIn : List (PyStr × ValueLabels)) (cols : List PyStr) :
    (final_sav_column_names varIn valIn cols).Nodup ∧
      (final_sav_column_names varIn valIn cols).length = cols.length :=
  ⟨(estadoFinalSav_inv varIn valIn cols).1,
    estadoFinalSav_names_length varIn valIn cols⟩

/-- Claim C2: after the final sanitization pass the metadata is consistent
with the table — the key set of the rebuilt variable-label map is exactly
the set of final column identifiers, and every key of the rebuilt
value-label map is a final column identifier. -/
theorem C2_final_metadata_consistent (varIn : List (PyStr × PyStr))
    (valIn : List (PyStr × ValueLabels)) (cols : List PyStr) :
    (∀ k, k ∈ dictKeys (final_spss_variable_labels_for_sav varIn valIn cols) ↔
        k ∈ final_sav_column_names varIn valIn cols) ∧
      (∀ k, k ∈ dictKeys (final_spss_value_labels_for_sav varIn valIn cols) →
        k ∈ final_sav_column_names varIn valIn cols) :=
  ⟨(estadoFinalSav_inv varIn valIn cols).2.2.1,
    (estadoFinalSav_inv varIn valIn cols).2.2.2⟩

/-- A raw cell of a non-numeric source column: a missing value (the loader
represents missing cells as NaN) or a string. -/
inductive PyCell
  | pnull
  | pstr (s : PyStr)
deriving DecidableEq

/-- `dropna` followed by `astype(str)` on a column of cells (app.py
line 468): missing cells are dropped, strings stay themselves. -/
def dropnaStr (col : List PyCell) : List PyStr :=
  col.filterMap (fun c =>
    match c with
    | PyCell.pnull => none
    | PyCell.pstr s => some s)

/-- The replacement of the empty string by the literal marker (app.py
line 470). -/
def reemplazaVacio (s : PyStr) : PyStr :=
  if s = [] then "nan".toList else s

/-- pandas `unique()`: deduplication keeping first occurrences. -/
def dedupFirstAux (seen : List PyStr) : List PyStr → List PyStr
  | [] => []
  | x :: xs =>
    if x ∈ seen then dedupFirstAux seen xs
    else x :: dedupFirstAux (x :: seen) xs

/-- Python string comparison: lexicographic by code point. -/
def lexLe : PyStr → PyStr → Bool
  | [], _ => true
  | _ :: _, [] => false
  | a :: as, b :: bs => if a = b then lexLe as bs else decide (a < b)

/-- Insertion step of the sort modelling Python `sorted`. -/
def insertaLex (x : PyStr) : List PyStr → List PyStr
  | [] => [x]
  | y :: ys => if lexLe x y then x :: y :: ys else y :: insertaLex x ys

/-- Python `sorted` with default string comparison. -/
def ordenaLex : List PyStr → List PyStr
  | [] => []
  | x :: xs => insertaLex x (ordenaLex xs)

/-- `categorias_unicas` (app.py lines 466-471): drop missing cells,
stringify, replace empty strings by the literal marker, deduplicate
keeping first occurrences, sort. -/
def categorias_unicas (col : List PyCell) : List PyStr :=
  ordenaLex (dedupFirstAux [] ((dropnaStr col).map reemplazaVacio))

theorem insertaLex_perm (x : PyStr) (l : List PyStr) :
    (insertaLex x l).Perm (x :: l) := by
  induction l with
  | nil => exact List.Perm.refl _
  | cons y ys ih =>
    unfold insertaLex
    by_cases h : lexLe x y = true
    · rw [if_pos h]
    · rw [if_neg h]
      exact (ih.cons y).trans (List.Perm.swap x y ys)

theorem ordenaLex_perm (l : List PyStr) : (ordenaLex l).Perm l := by
  induction l with
  | nil => exact List.Perm.refl _
  | cons x xs ih =>
    exact (insertaLex_perm x (ordenaLex xs)).trans (ih.cons x)

theorem dedupFirstAux_mem (l : List PyStr) :
    ∀ seen x, x ∈ dedupFirstAux seen l ↔ x ∈ l ∧ x ∉ seen := by
  induction l with
  | nil => intro seen x; simp [dedupFirstAux]
  | cons a as ih =>
    intro seen x
    unfold dedupFirstAux
    by_cases ha : a ∈ seen
    · rw [if_pos ha, ih seen x]
      simp only [List.mem_cons]
      constructor
      · rintro ⟨h1, h2⟩
        exact ⟨Or.inr h1, h2⟩
      · rintro ⟨h1 | h1, h2⟩
        · subst h1; exact absurd ha h2
        · exact ⟨h1, h2⟩
    · rw [if_neg ha]
      simp only [List.mem_cons, ih (a :: seen) x, List.mem_cons]
      constructor
      · rintro (rfl | ⟨h1, h2⟩)
        · exact ⟨Or.inl rfl, ha⟩
        · exact ⟨Or.inr h1, fun hs => h2 (Or.inr hs)⟩
      · rintro ⟨rfl | h1, h2⟩
        · exact Or.inl rfl
        · by_cases hax : x = a
          · exact Or.inl hax
          · exact Or.inr ⟨h1, fun hs => by
              rcases hs with hs | hs
              · exact hax hs
              · exact h2 hs⟩

theorem dedupFirstAux_nodup (l : List PyStr) :
    ∀ seen, (dedupFirstAux seen l).Nodup := by
  induction l with
  | nil => intro seen; exact List.nodup_nil
  | cons a as ih =>
    intro seen
    unfold dedupFirstAux
    by_cases ha : a ∈ seen
    · rw [if_pos ha]; exact ih seen
    · rw [if_neg ha]
      refine List.Nodup.cons ?_ (ih (a :: seen))
      intro hmem
      exact ((dedupFirstAux_mem as (a :: seen) a).mp hmem).2 (List.mem_cons_self a seen)

theorem categorias_unicas_nodup (col : List PyCell) :
    (categorias_unicas col).Nodup := by
  unfold categorias_unicas
  rw [(ordenaLex_perm _).nodup_iff]
  exact dedupFirstAux_nodup _ []

theorem categorias_unicas_mem (col : List PyCell) (x : PyStr) :
    x ∈ categorias_unicas col ↔ ∃ s, PyCell.pstr s ∈ col ∧ x = reemplazaVacio s := by
  unfold categorias_unicas
  rw [(ordenaLex_perm _).mem_iff, dedupFirstAux_mem]
  simp only [List.not_mem_nil, not_false_iff, and_true, List.mem_map, dropnaStr,
    List.mem_filterMap]
  constructor
  · rintro ⟨s, ⟨c, hc, hcs⟩, rfl⟩
    cases c with
    | pnull => simp at hcs
    | pstr t =>
      simp only [Option.some.injEq] at hcs
      subst hcs
      exact ⟨t, hc, rfl⟩
  · rintro ⟨s, hs, rfl⟩
    exact ⟨s, ⟨PyCell.pstr s, hs, rfl⟩, rfl⟩

/-- Claim C7 fails: the category extractor does not trim whitespace — a
cell whose string has surrounding spaces yields a category that keeps
those spaces (its first character is whitespace) and differs from its
trimmed form. -/
theorem C7_counterexample_no_trim :
    categorias_unicas [PyCell.pstr " Yes ".toList] = [" Yes ".toList] ∧
      pyIsSpace ((" Yes ".toList).headD 'x') = true ∧
      " Yes ".toList ≠ "Yes".toList := by
  refine ⟨rfl, rfl, ?_⟩
  decide

/-- Claim C7 amended: the extractor performs no whitespace trimming — the
extracted categories are exactly the string cells of the column taken
verbatim, except that the empty string becomes the literal marker; in
particular a cell with surrounding spaces contributes its untrimmed
text. -/
theorem C7_amended_categories_verbatim (col : List PyCell) (x : PyStr) :
    x ∈ categorias_unicas col ↔ ∃ s, PyCell.pstr s ∈ col ∧ x = reemplazaVacio s :=
  categorias_unicas_mem col x

theorem count_one_of_nodup_mem {α : Type} [BEq α] [LawfulBEq α] {l : List α}
    {a : α} (hn : l.Nodup) (ha : a ∈ l) : l.count a = 1 := by
  induction l with
  | nil => exact absurd ha (List.not_mem_nil a)
  | cons b bs ih =>
    rw [List.count_cons]
    rcases List.mem_cons.mp ha with rfl | ha'
    · have hnb : a ∉ bs := fun hmem => (List.nodup_cons.mp hn).1 hmem
      rw [List.count_eq_zero.mpr hnb]
      simp
    · have hne : ¬b = a := fun h => (List.nodup_cons.mp hn).1 (by rw [h]; exact ha')
      rw [ih (List.nodup_cons.mp hn).2 ha']
      simp [hne]

/-- Claim C8: for every column that contains an empty-string cell and a
missing cell, the extracted category set contains the literal marker
exactly once — both cells collapse into that single category and neither
introduces any other category. -/
theorem C8_empty_and_null_single_nan (col : List PyCell)
    (hempty : PyCell.pstr [] ∈ col) (_hnull : PyCell.pnull ∈ col) :
    (categorias_unicas col).count "nan".toList = 1 := by
  have hmem : "nan".toList ∈ categorias_unicas col := by
    rw [categorias_unicas_mem]
    exact ⟨[], hempty, rfl⟩
  exact count_one_of_nodup_mem (categorias_unicas_nodup col) hmem

/-- Witness for C8 at a concrete column holding one missing cell and one
empty-string cell. -/
theorem C8_empty_and_null_single_nan_witness :
    PyCell.pstr [] ∈ [PyCell.pnull, PyCell.pstr []] ∧
      PyCell.pnull ∈ [PyCell.pnull, PyCell.pstr []] ∧
      (categorias_unicas [PyCell.pnull, PyCell.pstr []]).count "nan".toList = 1 :=
  ⟨by decide, by decide,
    C8_empty_and_null_single_nan [PyCell.pnull, PyCell.pstr []]
      (by decide) (by decide)⟩

/-- Outcome of the category-count gate of app.py lines 476-479: either the
column proceeds to the advisor, or it is skipped with a log entry saying
there were no processable categories, or skipped with a log entry
recording how many categories fell outside the limit. -/
inductive GateDecision
  | procede
  | omiteSinCategorias
  | omiteFueraDeRango (n : Nat)
deriving DecidableEq

/-- The gate of app.py lines 476-479: skip when the category list is empty
or its length is not strictly between 1 and the limit (inclusive above),
logging which of the two situations holds; proceed otherwise. -/
def evaluarGateCategorias (cats : List PyStr) : GateDecision :=
  if cats.isEmpty ||
      !(decide (1 < cats.length) && decide (cats.length ≤ MAX_CATEGORIAS_PARA_LLM)) then
    if cats.isEmpty then GateDecision.omiteSinCategorias
    else GateDecision.omiteFueraDeRango cats.length
  else GateDecision.procede

/-- Claim C6: the engine proceeds to the advisor step exactly when the
distinct-category count n satisfies 1 < n and n ≤ 10; otherwise the column
is skipped and the skip entry records the situation (no categories, or the
out-of-range count from which too-few versus too-many is apparent). -/
theorem C6_size_gate (cats : List PyStr) :
    evaluarGateCategorias cats =
      if 1 < cats.length ∧ cats.length ≤ MAX_CATEGORIAS_PARA_LLM then
        GateDecision.procede
      else if cats.length = 0 then GateDecision.omiteSinCategorias
      else GateDecision.omiteFueraDeRango cats.length := by
  unfold evaluarGateCategorias
  have hie : cats.isEmpty = decide (cats.length = 0) := by
    cases cats <;> simp
  rw [hie]
  by_cases h1 : 1 < cats.length <;> by_cases h0 : cats.length = 0 <;>
    by_cases h2 : cats.length ≤ MAX_CATEGORIAS_PARA_LLM <;>
      simp [h1, h0, h2]

/-- A JSON value as it can appear in the advisor's mapping: an integer, a
string, or null.  (Fractional numbers are outside the modelled fragment;
the coercion below covers the integral values the advisor contract
describes.) -/
inductive PyVal
  | vint (n : Int)
  | vstr (s : PyStr)
  | vnull
deriving DecidableEq

instance : Inhabited PyVal := ⟨PyVal.vnull⟩

/-- ASCII decimal digit. -/
def isAsciiDigit (c : Char) : Bool :=
  '0' ≤ c && c ≤ '9'

/-- Value of a non-empty all-digit string. -/
def digitsToNat (ds : List Char) : Nat :=
  ds.foldl (fun acc c => 10 * acc + (c.toNat - 48)) 0

/-- Strip leading and trailing whitespace, as Python int() does before
parsing. -/
def pyStripSpaces (s : PyStr) : PyStr :=
  ((s.dropWhile pyIsSpace).reverse.dropWhile pyIsSpace).reverse

/-- Parse a non-empty run of ASCII digits. -/
def parseDigits (ds : List Char) : Option Nat :=
  if !ds.isEmpty && ds.all isAsciiDigit then some (digitsToNat ds) else none

/-- Python int() applied to a string: optional surrounding whitespace,
optional sign, then decimal digits; anything else raises ValueError
(modelled as none). -/
def pyParseInt (s : PyStr) : Option Int :=
  match pyStripSpaces s with
  | '-' :: ds => (parseDigits ds).map (fun n => -(n : Int))
  | '+' :: ds => (parseDigits ds).map (fun n => (n : Int))
  | ds => (parseDigits ds).map (fun n => (n : Int))

/-- Python int(v) for a mapping value, as in app.py line 496: integers pass
through, strings are parsed, null raises TypeError (none). -/
def pyInt : PyVal → Option Int
  | PyVal.vint n => some n
  | PyVal.vstr s => pyParseInt s
  | PyVal.vnull => none

/-- The per-entry coercion loop of app.py lines 492-500: every mapping
entry whose value coerces to an integer lands in the text-to-number map
and, inverted, in the value-label table (label truncated to 120
characters); an entry whose value fails coercion is skipped with a log
line.  The column is treated as not encodable only when the resulting
text-to-number map is empty (line 502). -/
def procesarMapeoLLM (mapping : List (PyStr × PyVal)) :
    List (PyStr × Int) × List (Int × PyStr) :=
  mapping.foldl
    (fun acc kv =>
      match pyInt kv.2 with
      | some n => (dictInsert acc.1 kv.1 n, dictInsert acc.2 n (kv.1.take 120))
      | none => acc)
    ([], [])

theorem dictInsert_ne_nil {α β : Type} [DecidableEq α]
    (d : List (α × β)) (k : α) (v : β) : dictInsert d k v ≠ [] := by
  unfold dictInsert
  by_cases hany : d.any (fun p => p.1 = k) = true
  · rw [if_pos hany]
    obtain ⟨q, hq, _⟩ := List.any_eq_true.mp hany
    intro hnil
    rw [List.map_eq_nil_iff] at hnil
    subst hnil
    exact absurd hq (List.not_mem_nil q)
  · rw [if_neg hany]
    simp

theorem procesarMapeoLLM_ne_nil_aux (l : List (PyStr × PyVal))
    (acc : List (PyStr × Int) × List (Int × PyStr)) (h : acc.1 ≠ []) :
    (l.foldl
      (fun acc kv =>
        match pyInt kv.2 with
        | some n => (dictInsert acc.1 kv.1 n, dictInsert acc.2 n (kv.1.take 120))
        | none => acc)
      acc).1 ≠ [] := by
  induction l generalizing acc with
  | nil => exact h
  | cons kv rest ih =>
    rw [List.foldl_cons]
    cases hv : pyInt kv.2 with
    | some n =>
      simp only [hv]
      exact ih _ (dictInsert_ne_nil _ _ _)
    | none =>
      simp only [hv]
      exact ih acc h

theorem procesarMapeoLLM_empty_aux (l : List (PyStr × PyVal))
    (acc : List (PyStr × Int) × List (Int × PyStr)) :
    ((l.foldl
      (fun acc kv =>
        match pyInt kv.2 with
        | some n => (dictInsert acc.1 kv.1 n, dictInsert acc.2 n (kv.1.take 120))
        | none => acc)
      acc).1 = [] ↔ acc.1 = [] ∧ ∀ kv ∈ l, pyInt kv.2 = none) := by
  induction l generalizing acc with
  | nil => simp
  | cons kv rest ih =>
    rw [List.foldl_cons]
    cases hv : pyInt kv.2 with
    | some n =>
      simp only [hv]
      constructor
      · intro hnil
        exact absurd hnil
          (procesarMapeoLLM_ne_nil_aux rest _ (dictInsert_ne_nil _ _ _))
      · rintro ⟨_, hall⟩
        have := hall kv (List.mem_cons_self kv rest)
        rw [hv] at this
        exact absurd this (by simp)
    | none =>
      simp only [hv]
      rw [ih acc]
      constructor
      · rintro ⟨h1, h2⟩
        refine ⟨h1, ?_⟩
        intro kv' hkv'
        rcases List.mem_cons.mp hkv' with rfl | hkv'
        · exact hv
        · exact h2 kv' hkv'
      · rintro ⟨h1, h2⟩
        exact ⟨h1, fun kv' hkv' => h2 kv' (List.mem_cons_of_mem kv hkv')⟩

/-- Claim C3 fails: a suggestion whose mapping contains one value that
cannot be coerced to an integer is not discarded as a whole — only the
offending entry is dropped, the remaining entry survives and the column is
still encoded (the surviving map is non-empty). -/
theorem C3_counterexample_entrywise_drop :
    pyInt (PyVal.vstr "xyz".toList) = none ∧
      (procesarMapeoLLM [("a".toList, PyVal.vint 1),
        ("b".toList, PyVal.vstr "xyz".toList)]).1 = [("a".toList, 1)] := by
  refine ⟨rfl, ?_⟩
  decide

/-- Claim C3 amended: mapping values that cannot be coerced to an integer
cause only their own entry to be dropped; the suggestion as a whole is
discarded — the column then proceeding as not encoded — exactly when every
entry's value fails the coercion. -/
theorem C3_amended_discard_iff_all_fail (mapping : List (PyStr × PyVal)) :
    (procesarMapeoLLM mapping).1 = [] ↔ ∀ kv ∈ mapping, pyInt kv.2 = none := by
  unfold procesarMapeoLLM
  rw [procesarMapeoLLM_empty_aux]
  simp

/-- `source_column_for_mapping` (app.py line 509): the original column is
stringified — pandas astype(str) renders a missing cell as the literal
string of NaN, which is the marker — and then empty strings are replaced
by the marker as well. -/
def source_column_for_mapping (col : List PyCell) : List PyStr :=
  col.map (fun c =>
    match c with
    | PyCell.pnull => "nan".toList
    | PyCell.pstr s => if s = [] then "nan".toList else s)

/-- The mapping application of app.py lines 521/527: each stringified cell
is looked up in the text-to-number map, values not found become missing. -/
def aplicarMapeo (col : List PyCell) (m : List (PyStr × Int)) : List (Option Int) :=
  (source_column_for_mapping col).map (fun s => dictGet m s)

/-- Claim C10: the applier stringifies originally-missing cells to the
literal marker before lookup, so the encoded value of a missing cell is
exactly the mapping's entry for the marker — the code of that key when the
advisor mapped it (e.g. 99), and missing only when the marker is not a
key. -/
theorem C10_null_cells_looked_up_as_nan (col : List PyCell)
    (m : List (PyStr × Int)) (i : Nat) (h : col[i]? = some PyCell.pnull) :
    (aplicarMapeo col m)[i]? = some (dictGet m "nan".toList) := by
  unfold aplicarMapeo source_column_for_mapping
  rw [List.map_map, List.getElem?_map, h]
  rfl

/-- Witness for C10: a one-cell missing column under a mapping that sends
the marker to 99 is encoded as 99, and under a mapping without the marker
it stays missing. -/
theorem C10_null_cells_looked_up_as_nan_witness :
    ([PyCell.pnull] : List PyCell)[0]? = some PyCell.pnull ∧
      (aplicarMapeo [PyCell.pnull] [("nan".toList, (99 : Int))])[0]? =
        some (some 99) ∧
      (aplicarMapeo [PyCell.pnull] [("si".toList, (1 : Int))])[0]? = some none := by
  refine ⟨rfl, ?_, ?_⟩
  · rw [C10_null_cells_looked_up_as_nan [PyCell.pnull] [("nan".toList, (99 : Int))]
      0 rfl]
    rfl
  · rw [C10_null_cells_looked_up_as_nan [PyCell.pnull] [("si".toList, (1 : Int))]
      0 rfl]
    rfl

/-- pandas `to_numeric(..., errors='coerce')` on one cell: a missing cell
stays missing, a string becomes its numeric value when it is an integer
literal and missing otherwise (fractional literals are outside the
modelled fragment; a non-numeric string such as the marker itself coerces
to missing, never to an error). -/
def pd_to_numeric_cell (c : PyCell) : Option Int :=
  match c with
  | PyCell.pnull => none
  | PyCell.pstr s => pyParseInt s

/-- Python `str.lower` per character, exact on ASCII (only the comparison
against the marker matters here). -/
def pyLowerChar (c : Char) : Char :=
  if 0x41 ≤ c.toNat ∧ c.toNat ≤ 0x5A then Char.ofNat (c.toNat + 32) else c

/-- The missing-likeness test of app.py line 645: `pd.isna(x)` or a string
whose lower-casing is the literal marker. -/
def esMissingLike (c : PyCell) : Bool :=
  match c with
  | PyCell.pnull => true
  | PyCell.pstr s => s.map pyLowerChar = "nan".toList

/-- pandas `astype(str)` on one cell: a missing cell becomes the literal
string of NaN. -/
def astypeStrCell (c : PyCell) : PyStr :=
  match c with
  | PyCell.pnull => "nan".toList
  | PyCell.pstr s => s

/-- A column of the final table as the writer sees it: natively numeric
(nullable numbers) or object/textual (cells). -/
inductive ColumnaFinal
  | numerica (vals : List (Option Int))
  | objeto (vals : List PyCell)
deriving DecidableEq

/-- The conversion condition of app.py lines 640-648: some value coerces
to a number, and every value whose coercion is missing is itself
missing-like. -/
def columnaConvertible (vals : List PyCell) : Bool :=
  (if !((vals.map pd_to_numeric_cell).all Option.isNone) then
    (vals.filter (fun v => (pd_to_numeric_cell v).isNone)).all esMissingLike
  else true) && !((vals.map pd_to_numeric_cell).all Option.isNone)

/-- The missing-value classification of app.py lines 628-668: a numeric
column is passed through with no declaration; an object column is
converted to numeric (no declaration) when convertible, and otherwise
stringified with the declaration of the literal marker. -/
def clasificarColumna : ColumnaFinal → ColumnaFinal × Option (List PyStr)
  | ColumnaFinal.numerica vs => (ColumnaFinal.numerica vs, none)
  | ColumnaFinal.objeto vals =>
    if columnaConvertible vals then
      (ColumnaFinal.numerica (vals.map pd_to_numeric_cell), none)
    else
      (ColumnaFinal.objeto (vals.map (fun c => PyCell.pstr (astypeStrCell c))),
        some ["nan".toList])

/-- Whether a final column is textual. -/
def esColumnaTexto : ColumnaFinal → Bool
  | ColumnaFinal.numerica _ => false
  | ColumnaFinal.objeto _ => true

theorem columnaConvertible_iff (vals : List PyCell) :
    columnaConvertible vals = true ↔
      (∃ v ∈ vals, (pd_to_numeric_cell v).isSome = true) ∧
        ∀ v ∈ vals, pd_to_numeric_cell v = none → esMissingLike v = true := by
  unfold columnaConvertible
  cases hA : (vals.map pd_to_numeric_cell).all Option.isNone with
  | true =>
    have hall : ∀ v ∈ vals, pd_to_numeric_cell v = none := by
      intro v hv
      exact Option.isNone_iff_eq_none.mp
        (List.all_eq_true.mp hA (pd_to_numeric_cell v)
          (List.mem_map_of_mem pd_to_numeric_cell hv))
    simp only [hA, Bool.not_true, Bool.and_false]
    constructor
    · intro h
      exact absurd h (by simp)
    · rintro ⟨⟨v, hv, hsome⟩, _⟩
      rw [hall v hv] at hsome
      exact absurd hsome (by simp)
  | false =>
    have hex : ∃ v ∈ vals, (pd_to_numeric_cell v).isSome = true := by
      have h1 : ¬ ∀ x ∈ vals.map pd_to_numeric_cell, Option.isNone x = true := by
        intro hforall
        rw [List.all_eq_true.mpr hforall] at hA
        exact absurd hA (by simp)
      push_neg at h1
      obtain ⟨x, hx, hnx⟩ := h1
      obtain ⟨v, hv, rfl⟩ := List.mem_map.mp hx
      refine ⟨v, hv, ?_⟩
      cases hc : pd_to_numeric_cell v with
      | none => rw [hc] at hnx; exact absurd rfl hnx
      | some n => rfl
    simp only [hA, Bool.not_false, if_true, Bool.and_true]
    rw [List.all_eq_true]
    constructor
    · intro h
      refine ⟨hex, ?_⟩
      intro v hv hnone
      exact h v (List.mem_filter.mpr ⟨hv, by rw [hnone]; rfl⟩)
    · rintro ⟨_, h⟩
      intro v hv
      obtain ⟨hv', hnone⟩ := List.mem_filter.mp hv
      exact h v hv' (Option.isNone_iff_eq_none.mp hnone)

/-- Claim C9 fails: an object column whose every value is missing-like (a
single missing cell, so every non-missing value trivially coerces) is not
converted to numeric — the code keeps it textual and does declare the
literal marker as its missing value. -/
theorem C9_counterexample_all_missing :
    (∀ v ∈ ([PyCell.pnull] : List PyCell),
        pd_to_numeric_cell v = none → esMissingLike v = true) ∧
      clasificarColumna (ColumnaFinal.objeto [PyCell.pnull]) =
        (ColumnaFinal.objeto [PyCell.pstr "nan".toList], some ["nan".toList]) := by
  refine ⟨?_, rfl⟩
  decide

/-- Claim C9 amended: a missing-value declaration is produced exactly for
the columns that remain textual, and it is always the literal marker; an
object column is converted to numeric (and so carries no declaration)
exactly when at least one of its values coerces to a number and every
value whose coercion fails is missing-like — in particular a column with
no coercible value at all, such as an all-missing one, stays textual and
is declared. -/
theorem C9_amended_decl_iff_textual (vals : List PyCell) (col : ColumnaFinal) :
    ((clasificarColumna col).2.isSome = true ↔
        esColumnaTexto (clasificarColumna col).1 = true) ∧
      ((clasificarColumna col).2 = none ∨
        (clasificarColumna col).2 = some ["nan".toList]) ∧
      (esColumnaTexto (clasificarColumna (ColumnaFinal.objeto vals)).1 = false ↔
        (∃ v ∈ vals, (pd_to_numeric_cell v).isSome = true) ∧
          ∀ v ∈ vals, pd_to_numeric_cell v = none → esMissingLike v = true) := by
  refine ⟨?_, ?_, ?_⟩
  · cases col with
    | numerica vs => simp [clasificarColumna, esColumnaTexto]
    | objeto vs =>
      by_cases hc : columnaConvertible vs = true
      · simp [clasificarColumna, hc, esColumnaTexto]
      · simp [clasificarColumna, hc, esColumnaTexto]
  · cases col with
    | numerica vs => simp [clasificarColumna]
    | objeto vs =>
      by_cases hc : columnaConvertible vs = true
      · simp [clasificarColumna, hc]
      · simp [clasificarColumna, hc]
  · rw [← columnaConvertible_iff]
    by_cases hc : columnaConvertible vals = true
    · simp [clasificarColumna, hc, esColumnaTexto]
    · simp [clasificarColumna, hc, esColumnaTexto]
